import Mathlib

/-
Verification development for the PDF watermarking and combination tool
(generate_loc_file.py).  The Python source is embedded shallowly:
pure computations become Lean functions over `List Char`, `ℚ` and `ℕ`/`ℤ`;
the PyPDF2 reader/writer page lists become Lean lists of a `Page` record;
fallible reads become `Option`.  Floating-point trigonometric constants are
represented by fixed rational stand-ins for the double values the program
computes (`math.cos(math.radians(30))` etc.); no proof below depends on
their last digits.  Font advance-width metrics live in the external
Helvetica-Bold font data, outside this repository; they are modelled by an
explicit per-character table.
-/

namespace RentalPdf

/- ## String helpers (Python `str` operations used by the tool) -/

/- Python `s.startswith(pat)` specialised to character lists. -/
def startsWith : List Char → List Char → Bool
  | [], _ => true
  | _ :: _, [] => false
  | p :: ps, c :: t => p == c && startsWith ps t

/- Python `s.endswith(pat)`. -/
def endsWithB (pat s : List Char) : Bool :=
  startsWith pat.reverse s.reverse

/- `pat` occurs nowhere in `s` (as a contiguous substring). -/
def noOccurB (pat : List Char) : List Char → Bool
  | [] => true
  | c :: t => !startsWith pat (c :: t) && noOccurB pat t

/- Python `s.replace(pat, "")`: left-to-right removal of every
non-overlapping occurrence of `pat`.  Fueled so it is structurally
recursive; one unit of fuel is spent per scanned position, and
`s.length` fuel always suffices. -/
def removeAllF (pat : List Char) : Nat → List Char → List Char
  | _, [] => []
  | 0, s => s
  | fuel + 1, c :: t =>
    if startsWith pat (c :: t) then removeAllF pat fuel ((c :: t).drop pat.length)
    else c :: removeAllF pat fuel t

def removeAll (pat s : List Char) : List Char :=
  removeAllF pat s.length s

/- Python `s.replace(a, b)` for single characters. -/
def mapReplaceChar (a b : Char) (s : List Char) : List Char :=
  s.map (fun c => if c = a then b else c)

/- Python `s.title()` restricted to ASCII-style cased characters: a letter
following a non-letter is uppercased, a letter following a letter is
lowercased, other characters pass through. -/
def titleCase : List Char → Bool → List Char
  | [], _ => []
  | c :: t, prevAlpha =>
    (if c.isAlpha then (if prevAlpha then c.toLower else c.toUpper) else c)
      :: titleCase t c.isAlpha

/- ## Pages and the watermark compositor -/

/- A PDF page: mediabox width/height in points plus an opaque content id. -/
structure Page where
  width : ℚ
  height : ℚ
  content : ℕ
deriving DecidableEq, Repr

instance : Inhabited Page := ⟨⟨0, 0, 0⟩⟩

/- PyPDF2 `page.merge_page(overlay)`: the base page keeps its mediabox and
its content stream gains the overlay's content painted on top. -/
def mergePage (base overlay : Page) : Page :=
  ⟨base.width, base.height, Nat.pair base.content overlay.content⟩

/- `create_watermark_pdf(width, height)` (generate_loc_file.py:43-134),
page-structure view: the ReportLab canvas is created with
`pagesize=(width, height)`, so the single overlay page has exactly the
requested dimensions; the drawn text is abstracted into the content id. -/
def create_watermark_page (width height : ℚ) : Page :=
  ⟨width, height, 0⟩

/- `watermark_pdf` success path (generate_loc_file.py:136-158): for each
page, read its own mediabox, render the overlay at those exact dimensions
and merge it onto the page, keeping order. -/
def watermark_pdf (doc : List Page) : List Page :=
  doc.map (fun p => mergePage p (create_watermark_page p.width p.height))

/- `watermark_pdf` with fallible page reads (generate_loc_file.py:136-165):
the whole body is wrapped in try/except, so the first failing page makes
the function return failure (`False` ⟶ `none`) for the whole document. -/
def watermarkPdfR : List (Option Page) → Option (List Page)
  | [] => some []
  | op :: t =>
    match op with
    | none => none
    | some p =>
      match watermarkPdfR t with
      | none => none
      | some rest =>
        some (mergePage p (create_watermark_page p.width p.height) :: rest)

/- `process_folder` per-file loop (generate_loc_file.py:568-579): each
successfully watermarked document is appended to the list later combined;
a failed document is skipped and the loop continues. -/
def processFolder (docs : List (List (Option Page))) : List (List Page) :=
  docs.filterMap watermarkPdfR

/- ## Overlay renderer: font-size search (generate_loc_file.py:55-94) -/

/- Rational stand-in for the double `math.cos(math.radians(30))`. -/
def cos30 : ℚ := 8660254037844387 / 10 ^ 16

/- Rational stand-in for the double `math.sin(math.radians(30))`. -/
def sin30 : ℚ := 1 / 2

/- ReportLab `stringWidth(text, font, size)` = (sum of per-glyph advance
widths in 1/1000 em) × size / 1000; `units` abstracts the glyph sum. -/
def stringWidthQ (units fontSize : ℚ) : ℚ :=
  units * fontSize / 1000

/- Lines 62-69: `usable_width = width * (1 - 2*0.1)`;
`rotation_width_factor = |cos 30°| + |sin 30°| * (font_size / width)`
evaluated once, before the shrink loop, with `font_size = 24`;
`max_allowed_width = usable_width / rotation_width_factor`. -/
def maxAllowedWidth (width : ℚ) : ℚ :=
  let usable := width * (1 - 2 * (1 / 10))
  let factor := cos30 + sin30 * (24 / width)
  usable / factor

/- Lines 73-75: `while text_width > max_allowed_width and font_size > 8:
font_size -= 1; recompute text_width`.  `k` is `font_size - 8` so the
recursion is structural; `shrinkFontSize u mx k` runs the loop starting
from font size `k + 8`. -/
def shrinkFontSize (units mx : ℚ) : ℕ → ℕ
  | 0 => 8
  | k + 1 => if stringWidthQ units ((k : ℚ) + 9) > mx then shrinkFontSize units mx k else k + 9

/- The font size the renderer settles on (search starts at 24). -/
def chooseFontSize (units width : ℚ) : ℕ :=
  shrinkFontSize units (maxAllowedWidth width) 16

/- ## Overlay renderer: truncation step (generate_loc_file.py:83-94) -/

/- Per-glyph advance widths (1/1000 em) of the built-in bold face.
Modelled from the spec: the Helvetica-Bold metric table itself lives in
the external font data, not in this repository; the glyphs exercised by
the proofs below carry their real AFM values, everything else a filler. -/
def helvBoldWidth (c : Char) : ℚ :=
  if c = '.' then 278 else if c = 'M' then 889 else 556

def stringWidthText (cw : Char → ℚ) (t : List Char) (fontSize : ℚ) : ℚ :=
  ((t.map cw).sum) * fontSize / 1000

/- Line 87: `truncated_text = truncated_text[:-3] + "..."`. -/
def truncStep (t : List Char) : List Char :=
  t.take (t.length - 3) ++ ('.' :: '.' :: '.' :: [])

/- Line 86 loop guard: `text_width > max_allowed_width and
len(truncated_text) > 10` (width measured at the current font size,
which is 8 when the truncation loop is reached). -/
def truncGuard (cw : Char → ℚ) (mx : ℚ) (t : List Char) : Prop :=
  stringWidthText cw t 8 > mx ∧ 10 < t.length

instance (cw : Char → ℚ) (mx : ℚ) (t : List Char) : Decidable (truncGuard cw mx t) :=
  inferInstanceAs (Decidable (_ ∧ _))

/- ## TOC link records and the link-injection pass -/

/- `self._toc_links` element (generate_loc_file.py:266-270):
`{'rect': [x1, y1, x2, y2], 'target_page': ..., 'toc_page': ...}`. -/
structure TocLinkRecord where
  x1 : ℚ
  y1 : ℚ
  x2 : ℚ
  y2 : ℚ
  target_page : ℤ
  toc_page : ℕ
deriving DecidableEq, Repr

/- A link annotation attached by the pass: the TOC page it sits on, the
page-description-space rectangle, and the activation target index. -/
structure LinkAnnot where
  page_number : ℕ
  rx1 : ℚ
  ry1 : ℚ
  rx2 : ℚ
  ry2 : ℚ
  target_index : ℤ
deriving DecidableEq, Repr

/- The PdfWriter state during `add_links_to_pdf`: the copied pages plus
the annotations attached so far. -/
structure Writer where
  pages : List Page
  annots : List LinkAnnot
deriving DecidableEq, Repr

/- Loop body for one `TocLinkRecord` (generate_loc_file.py:302-331):
`toc_page_idx = 1 + toc_page`; `target_page_idx = target_page - 1`;
if both are `< len(writer.pages)`, flip the rectangle with that TOC
page's own mediabox height and attach the annotation, else skip. -/
def addLinkStep (w : Writer) (l : TocLinkRecord) : Writer :=
  let tocIdx : ℕ := 1 + l.toc_page
  let tgtIdx : ℤ := l.target_page - 1
  if tgtIdx < (w.pages.length : ℤ) ∧ tocIdx < w.pages.length then
    let pageHeight := (w.pages.getD tocIdx default).height
    { w with
      annots := w.annots ++
        [⟨tocIdx, l.x1, pageHeight - l.y2, l.x2, pageHeight - l.y1, tgtIdx⟩] }
  else w

/- `add_links_to_pdf` (generate_loc_file.py:291-337): copy every page of
the input, then process the recorded links in order. -/
def add_links_to_pdf (inputPages : List Page) (links : List TocLinkRecord) : Writer :=
  links.foldl addLinkStep ⟨inputPages, []⟩

/- ## Document-info analysis (generate_loc_file.py:379-416) -/

def wmChars : List Char := ("_watermarked").data

def pdfExt : List Char := (".pdf").data

/- Line 395: `folder_name = pdf_path.name.split('_')[0]`; the name is the
stem plus the `.pdf` extension. -/
def folderNameOf (stem : List Char) : List Char :=
  (stem ++ pdfExt).takeWhile (fun c => c ≠ '_')

/- Line 400: `clean_name = filename.replace(f"{folder_name}_", "")
.replace("_watermarked", "")` applied to the stem. -/
def cleanNameOf (stem : List Char) : List Char :=
  removeAll wmChars (removeAll (folderNameOf stem ++ ['_']) stem)

/- Lines 403-408: truncate at the first '-', replace '_' by ' ',
title-case. -/
def docNameOf (stem : List Char) : List Char :=
  titleCase (mapReplaceChar '_' ' ' ((cleanNameOf stem).takeWhile (fun c => c ≠ '-'))) false

/- The spec's description of the same derivation, for comparison: strip
the `<group>_` PREFIX (once) and the `_watermarked` SUFFIX (once), then
truncate at the first '-', replace '_' by ' ', title-case. -/
def specDisplayName (g stem : List Char) : List Char :=
  let s1 := if startsWith (g ++ ['_']) stem then stem.drop (g ++ ['_']).length else stem
  let s2 := if endsWithB wmChars s1 then s1.take (s1.length - wmChars.length) else s1
  titleCase (mapReplaceChar '_' ' ' (s2.takeWhile (fun c => c ≠ '-'))) false

/- One row of `document_info` (generate_loc_file.py:409-414). -/
structure DocumentEntry where
  folder : List Char
  document : List Char
  page : ℕ
  num_pages : ℕ
deriving DecidableEq, Repr

instance : Inhabited DocumentEntry := ⟨⟨[], [], 0, 0⟩⟩

/- Line 388: `estimated_toc_pages = max(1, (total_docs * 2) // 40)`. -/
def estimatedTocPages (n : ℕ) : ℕ := max 1 (n * 2 / 40)

/- Lines 392-416 analysis loop over readable documents, threading the
running `current_page`; each input is (filename stem, page count). -/
def buildGo : List (List Char × ℕ) → ℕ → List DocumentEntry
  | [], _ => []
  | (stem, np) :: t, cur =>
    ⟨folderNameOf stem, docNameOf stem, cur, np⟩ :: buildGo t (cur + np)

/- Lines 380-390 seed the counter: `current_page = 1`, `+= 1` for the
title page, `+= estimated_toc_pages`. -/
def buildDocumentInfo (docs : List (List Char × ℕ)) : List DocumentEntry :=
  buildGo docs (2 + estimatedTocPages docs.length)

/- ## Group nodes in the bookmark pass and TOC headers -/

/- `add_bookmarks_to_pdf` top-level loop (generate_loc_file.py:354-369):
`current_person` starts as None; a new top-level outline item is created
exactly when the entry's folder differs from `current_person`.  The
produced value is the list of top-level group labels in creation order. -/
def bookmarkGroupLabels : Option (List Char) → List DocumentEntry → List (List Char)
  | _, [] => []
  | cur, e :: t =>
    if cur ≠ some e.folder then e.folder :: bookmarkGroupLabels (some e.folder) t
    else bookmarkGroupLabels (some e.folder) t

/- `create_table_of_contents` header loop (generate_loc_file.py:224-233):
the same `current_person` pattern decides when a group header line is
drawn; the produced value is the list of header labels drawn. -/
def tocGroupHeaders : Option (List Char) → List DocumentEntry → List (List Char)
  | _, [] => []
  | cur, e :: t =>
    if cur ≠ some e.folder then e.folder :: tocGroupHeaders (some e.folder) t
    else tocGroupHeaders (some e.folder) t

/- Number of runs of consecutive equal labels. -/
def runsCount : List (List Char) → ℕ
  | [] => 0
  | [_] => 1
  | a :: b :: t => (if a = b then 0 else 1) + runsCount (b :: t)

/- ## Helper lemmas -/

theorem truncStep_length (t : List Char) : (truncStep t).length = (t.length - 3) + 3 := by
  simp [truncStep, List.length_take, Nat.min_eq_left (Nat.sub_le _ _)]

theorem truncStep_idem (t : List Char) : truncStep (truncStep t) = truncStep t := by
  have key : ∀ s : List Char,
      truncStep (s ++ ('.' :: '.' :: '.' :: [])) = s ++ ('.' :: '.' :: '.' :: []) := by
    intro s
    show (s ++ ('.' :: '.' :: '.' :: [])).take ((s ++ ('.' :: '.' :: '.' :: [])).length - 3)
        ++ ('.' :: '.' :: '.' :: []) = s ++ ('.' :: '.' :: '.' :: [])
    have hl : (s ++ ('.' :: '.' :: '.' :: [])).length - 3 = s.length := by
      simp
    rw [hl, List.take_left]
  exact key (t.take (t.length - 3))

theorem shrink_le_or_floor (u mx : ℚ) :
    ∀ k : ℕ, stringWidthQ u ((shrinkFontSize u mx k : ℕ) : ℚ) ≤ mx ∨ shrinkFontSize u mx k = 8 := by
  intro k
  induction k with
  | zero => exact Or.inr rfl
  | succ j ih =>
    by_cases h : stringWidthQ u ((j : ℚ) + 9) > mx
    · rw [shrinkFontSize, if_pos h]
      exact ih
    · rw [shrinkFontSize, if_neg h]
      left
      push_neg at h
      have hc : (((j + 9 : ℕ) : ℚ)) = (j : ℚ) + 9 := by push_cast; ring
      rw [hc]
      exact h

theorem shrink_overflow_floor (u mx : ℚ) (hu : 0 ≤ u) (h9 : mx < stringWidthQ u 9) :
    ∀ k : ℕ, shrinkFontSize u mx k = 8 := by
  intro k
  induction k with
  | zero => rfl
  | succ j ih =>
    have hj : stringWidthQ u ((j : ℚ) + 9) > mx := by
      refine lt_of_lt_of_le h9 ?_
      unfold stringWidthQ
      gcongr
      have hj0 : (0 : ℚ) ≤ (j : ℚ) := Nat.cast_nonneg j
      linarith
    rw [shrinkFontSize, if_pos hj]
    exact ih

theorem shrink_fits_first (u mx : ℚ) (k : ℕ) (hk : 0 < k)
    (h : ¬ stringWidthQ u (((k + 8 : ℕ) : ℚ)) > mx) :
    shrinkFontSize u mx k = k + 8 := by
  cases k with
  | zero => exact absurd hk (by omega)
  | succ j =>
    have h' : ¬ stringWidthQ u ((j : ℚ) + 9) > mx := by
      have hc : (((j + 1 + 8 : ℕ) : ℚ)) = (j : ℚ) + 9 := by push_cast; ring
      rwa [hc] at h
    rw [shrinkFontSize, if_neg h']

/- ## Claim theorems: truncation step and truncation loop -/

/-- C9: one truncation step maps `t` to `t` with its last 3 characters
removed and the 3-character ellipsis marker appended; for every text of
length greater than 3 the step preserves the length exactly, and the step
is idempotent: applying it twice yields the same string as applying it
once. -/
theorem c9_trunc_step_length_and_idem :
    (∀ t : List Char, 3 < t.length → (truncStep t).length = t.length) ∧
    (∀ t : List Char, truncStep (truncStep t) = truncStep t) := by
  constructor
  · intro t h
    rw [truncStep_length]
    omega
  · exact truncStep_idem

theorem c9_trunc_step_witness :
    (truncStep (("abcd").data)).length = (("abcd").data).length ∧
    truncStep (truncStep (("ab").data)) = truncStep (("ab").data) :=
  ⟨c9_trunc_step_length_and_idem.1 (("abcd").data) (by decide),
   c9_trunc_step_length_and_idem.2 (("ab").data)⟩

/-- C4: refuted on the code — with the watermark text `'M' × 40` on a
200pt-wide page, the font-size search bottoms out at the 8pt floor with
the text still overflowing the bound, the truncation loop is entered,
and its guard (`text_width > max_allowed_width and len(text) > 10`)
holds after every number of iterations of the truncation step: the step
keeps the length constant and is idempotent, so the loop of
generate_loc_file.py:86-88 never terminates on this input, contradicting
the claimed termination. -/
theorem c4_truncation_loop_never_exits :
    chooseFontSize 35560 200 = 8 ∧
    stringWidthQ 35560 8 > maxAllowedWidth 200 ∧
    ∀ n : ℕ,
      truncGuard helvBoldWidth (maxAllowedWidth 200) (truncStep^[n] (List.replicate 40 'M')) := by
  have hfloor : chooseFontSize 35560 200 = 8 :=
    shrink_overflow_floor 35560 (maxAllowedWidth 200) (by norm_num)
      (by norm_num [stringWidthQ, maxAllowedWidth, cos30, sin30]) 16
  have hover : stringWidthQ 35560 8 > maxAllowedWidth 200 := by
    norm_num [stringWidthQ, maxAllowedWidth, cos30, sin30]
  have hstep : truncStep (List.replicate 40 'M') =
      List.replicate 37 'M' ++ ('.' :: '.' :: '.' :: []) := by
    rw [truncStep]
    norm_num [List.take_replicate]
  have hM : helvBoldWidth 'M' = 889 := rfl
  have hD : helvBoldWidth '.' = 278 := rfl
  have hg0 : truncGuard helvBoldWidth (maxAllowedWidth 200) (List.replicate 40 'M') := by
    constructor
    · simp only [stringWidthText, List.map_replicate, List.sum_replicate, hM, nsmul_eq_mul]
      norm_num [maxAllowedWidth, cos30, sin30]
    · simp
  have hg1 : truncGuard helvBoldWidth (maxAllowedWidth 200)
      (truncStep (List.replicate 40 'M')) := by
    rw [hstep]
    constructor
    · simp only [stringWidthText, List.map_append, List.sum_append, List.map_replicate,
        List.sum_replicate, List.map_cons, List.map_nil, List.sum_cons, List.sum_nil,
        hM, hD, nsmul_eq_mul]
      norm_num [maxAllowedWidth, cos30, sin30]
    · simp
  refine ⟨hfloor, hover, ?_⟩
  intro n
  cases n with
  | zero =>
    rw [Function.iterate_zero_apply]
    exact hg0
  | succ m =>
    rw [Function.iterate_succ_apply,
      Function.iterate_fixed (truncStep_idem (List.replicate 40 'M')) m]
    exact hg1

/- ## Claim theorems: font-size search -/

/-- C3: refuted on the code — the loop bound `max_allowed_width` is
`width × 0.8` divided by the rotation factor `cos 30° + sin 30° × (24 /
width)`, and on a wide page that factor is below 1, so the bound exceeds
`width × 0.8`.  With glyph units 35417 on a 1000pt-wide page the search
keeps font size 24 (not the 8pt floor), yet the measured width 850.008
is greater than `1000 × 0.8 = 800`. -/
theorem c3_width_bound_counterexample :
    chooseFontSize 35417 1000 = 24 ∧
    ¬ stringWidthQ 35417 ((chooseFontSize 35417 1000 : ℕ) : ℚ) ≤ 1000 * (8 / 10) := by
  have h24 : chooseFontSize 35417 1000 = 24 :=
    shrink_fits_first 35417 (maxAllowedWidth 1000) 16 (by omega)
      (by norm_num [stringWidthQ, maxAllowedWidth, cos30, sin30])
  refine ⟨h24, ?_⟩
  rw [h24]
  norm_num [stringWidthQ]

/-- C3 (amended): for every glyph-unit sum and positive page width, the
font size chosen by the search yields a measured width of at most
`max_allowed_width` — that is `width × 0.8` divided by the rotation
factor computed at font size 24 — unless the search bottoms out at the
8pt floor; the plain `width × 0.8` bound does not hold in general. -/
theorem c3_font_size_bound (u w : ℚ) (_hw : 0 < w) :
    stringWidthQ u ((chooseFontSize u w : ℕ) : ℚ) ≤ maxAllowedWidth w ∨
      chooseFontSize u w = 8 :=
  shrink_le_or_floor u (maxAllowedWidth w) 16

theorem c3_font_size_bound_witness :
    (0 : ℚ) < 1000 ∧
    (stringWidthQ 35417 ((chooseFontSize 35417 1000 : ℕ) : ℚ) ≤ maxAllowedWidth 1000 ∨
      chooseFontSize 35417 1000 = 8) :=
  ⟨by norm_num, c3_font_size_bound 35417 1000 (by norm_num)⟩

/- ## Claim theorems: watermark compositor -/

/-- C5: watermarking a document produces a new document with exactly the
same page count and page order, each output page being the corresponding
input page merged with an overlay rendered at that page's own width and
height, so per-page dimensions are preserved exactly. -/
theorem c5_watermark_preserves_pages :
    ∀ doc : List Page,
      (watermark_pdf doc).length = doc.length ∧
      ∀ (i : ℕ) (p : Page), doc[i]? = some p →
        (watermark_pdf doc)[i]? =
            some (mergePage p (create_watermark_page p.width p.height)) ∧
          ((watermark_pdf doc)[i]?).map (fun q => (q.width, q.height)) =
            some (p.width, p.height) := by
  intro doc
  constructor
  · simp [watermark_pdf]
  · intro i p hp
    have hmain : (watermark_pdf doc)[i]? =
        some (mergePage p (create_watermark_page p.width p.height)) := by
      simp [watermark_pdf, List.getElem?_map, hp]
    refine ⟨hmain, ?_⟩
    rw [hmain]
    simp [mergePage, create_watermark_page]

theorem c5_watermark_witness :
    (watermark_pdf [(⟨595, 842, 7⟩ : Page)]).length = 1 ∧
    (watermark_pdf [(⟨595, 842, 7⟩ : Page)])[0]? =
      some (mergePage ⟨595, 842, 7⟩ (create_watermark_page 595 842)) := by
  have h := c5_watermark_preserves_pages [(⟨595, 842, 7⟩ : Page)]
  exact ⟨h.1, (h.2 0 ⟨595, 842, 7⟩ rfl).1⟩

/-- C6: if reading any page of a document fails, watermarking that
document returns a failure value (no unhandled exception: the function is
total), the failed document is excluded from the list that gets combined,
and the remaining documents are processed unchanged. -/
theorem c6_failure_isolated :
    ∀ (pre post : List (List (Option Page))) (d : List (Option Page)),
      (none ∈ d → watermarkPdfR d = none) ∧
      (watermarkPdfR d = none →
        processFolder (pre ++ d :: post) = processFolder pre ++ processFolder post) := by
  intro pre post d
  constructor
  · intro hmem
    induction d with
    | nil => simp at hmem
    | cons op t ih =>
      cases op with
      | none => rfl
      | some p =>
        have ht : none ∈ t := by
          rcases List.mem_cons.mp hmem with h | h
          · exact absurd h (by simp)
          · exact h
        rw [watermarkPdfR]
        simp [ih ht]
  · intro hnone
    simp [processFolder, List.filterMap_append, List.filterMap_cons, hnone]

theorem c6_failure_isolated_witness :
    watermarkPdfR [none] = none ∧
    processFolder ([[some (⟨1, 1, 0⟩ : Page)]] ++ [none] :: [[some (⟨2, 2, 0⟩ : Page)]]) =
      processFolder [[some (⟨1, 1, 0⟩ : Page)]] ++
        processFolder [[some (⟨2, 2, 0⟩ : Page)]] := by
  have h := c6_failure_isolated [[some (⟨1, 1, 0⟩ : Page)]] [[some (⟨2, 2, 0⟩ : Page)]] [none]
  exact ⟨h.1 (by simp), h.2 (h.1 (by simp))⟩

/- ## Claim theorems: link-injection pass -/

theorem addLinkStep_in_range (w : Writer) (l : TocLinkRecord)
    (h : l.target_page - 1 < (w.pages.length : ℤ) ∧ 1 + l.toc_page < w.pages.length) :
    addLinkStep w l =
      ⟨w.pages,
        w.annots ++
          [⟨1 + l.toc_page, l.x1,
            (w.pages.getD (1 + l.toc_page) default).height - l.y2, l.x2,
            (w.pages.getD (1 + l.toc_page) default).height - l.y1,
            l.target_page - 1⟩]⟩ := by
  simp [addLinkStep, h]

theorem addLinkStep_out_of_range (w : Writer) (l : TocLinkRecord)
    (h : ¬ (l.target_page - 1 < (w.pages.length : ℤ) ∧ 1 + l.toc_page < w.pages.length)) :
    addLinkStep w l = w := by
  simp only [addLinkStep]
  rw [if_neg h]

theorem addLinks_fold (links : List TocLinkRecord) :
    ∀ (pages : List Page) (acc : List LinkAnnot),
      links.foldl addLinkStep ⟨pages, acc⟩ =
        ⟨pages,
          acc ++ links.filterMap (fun l =>
            if l.target_page - 1 < (pages.length : ℤ) ∧ 1 + l.toc_page < pages.length then
              some ⟨1 + l.toc_page, l.x1,
                (pages.getD (1 + l.toc_page) default).height - l.y2, l.x2,
                (pages.getD (1 + l.toc_page) default).height - l.y1,
                l.target_page - 1⟩
            else none)⟩ := by
  induction links with
  | nil => intro pages acc; simp
  | cons l t ih =>
    intro pages acc
    rw [List.foldl_cons, List.filterMap_cons]
    by_cases h : l.target_page - 1 < (pages.length : ℤ) ∧ 1 + l.toc_page < pages.length
    · rw [addLinkStep_in_range ⟨pages, acc⟩ l h, ih, if_pos h]
      simp
    · rw [addLinkStep_out_of_range ⟨pages, acc⟩ l h, ih, if_neg h]

/-- C1: for every recorded TOC link, the link-injection step computes the
absolute TOC-page index as `1 + toc_page`, the absolute target index as
`target_page - 1`, attaches the annotation exactly when both indices are
below the assembled page count, and flips the stored rectangle
`[x1, y1, x2, y2]` to `[x1, H - y2, x2, H - y1]` with `H` the height of
that specific TOC page; concretely, a rect with layout y-range
`[100, 115]` on a TOC page of height `841.89` yields page-description
y-range `[726.89, 741.89]`. -/
theorem c1_link_injection :
    (∀ (w : Writer) (l : TocLinkRecord),
      ((l.target_page - 1 < (w.pages.length : ℤ) ∧ 1 + l.toc_page < w.pages.length) →
        addLinkStep w l =
          ⟨w.pages,
            w.annots ++
              [⟨1 + l.toc_page, l.x1,
                (w.pages.getD (1 + l.toc_page) default).height - l.y2, l.x2,
                (w.pages.getD (1 + l.toc_page) default).height - l.y1,
                l.target_page - 1⟩]⟩) ∧
      (¬ (l.target_page - 1 < (w.pages.length : ℤ) ∧ 1 + l.toc_page < w.pages.length) →
        addLinkStep w l = w)) ∧
    (add_links_to_pdf [⟨595, 84189 / 100, 1⟩, ⟨595, 84189 / 100, 2⟩, ⟨595, 84189 / 100, 3⟩,
        ⟨595, 84189 / 100, 4⟩] [⟨50, 100, 545, 115, 3, 0⟩]).annots =
      [⟨1, 50, 72689 / 100, 545, 74189 / 100, 2⟩] := by
  refine ⟨fun w l => ⟨addLinkStep_in_range w l, addLinkStep_out_of_range w l⟩, ?_⟩
  rw [add_links_to_pdf, addLinks_fold]
  simp only [List.filterMap_cons, List.filterMap_nil]
  norm_num [List.getD]

theorem c1_link_injection_witness :
    addLinkStep
        ⟨[⟨595, 84189 / 100, 1⟩, ⟨595, 84189 / 100, 2⟩, ⟨595, 84189 / 100, 3⟩,
          ⟨595, 84189 / 100, 4⟩], []⟩
        ⟨50, 100, 545, 115, 3, 0⟩ =
      ⟨[⟨595, 84189 / 100, 1⟩, ⟨595, 84189 / 100, 2⟩, ⟨595, 84189 / 100, 3⟩,
          ⟨595, 84189 / 100, 4⟩],
        [⟨1, 50, 72689 / 100, 545, 74189 / 100, 2⟩]⟩ := by
  have h := (c1_link_injection.1
    ⟨[⟨595, 84189 / 100, 1⟩, ⟨595, 84189 / 100, 2⟩, ⟨595, 84189 / 100, 3⟩,
      ⟨595, 84189 / 100, 4⟩], []⟩
    ⟨50, 100, 545, 115, 3, 0⟩).1 (by norm_num)
  rw [h]
  norm_num

/-- C8: the link-injection pass changes nothing except annotations — the
output contains exactly the input pages in order, for every link-record
list (including out-of-range records), and the attached annotations are
precisely those of the in-range records in order, out-of-range records
being skipped without affecting the pages or the other records. -/
theorem c8_link_pass_frame :
    ∀ (pages : List Page) (links : List TocLinkRecord),
      (add_links_to_pdf pages links).pages = pages ∧
      (add_links_to_pdf pages links).annots =
        links.filterMap (fun l =>
          if l.target_page - 1 < (pages.length : ℤ) ∧ 1 + l.toc_page < pages.length then
            some ⟨1 + l.toc_page, l.x1,
              (pages.getD (1 + l.toc_page) default).height - l.y2, l.x2,
              (pages.getD (1 + l.toc_page) default).height - l.y1,
              l.target_page - 1⟩
          else none) := by
  intro pages links
  rw [add_links_to_pdf, addLinks_fold]
  simp

/- ## Claim theorems: document-info analysis -/

theorem buildGo_length : ∀ (docs : List (List Char × ℕ)) (cur : ℕ),
    (buildGo docs cur).length = docs.length := by
  intro docs
  induction docs with
  | nil => intro cur; rfl
  | cons d t ih =>
    intro cur
    obtain ⟨stem, np⟩ := d
    simp [buildGo, ih]

theorem buildGo_chain : ∀ (docs : List (List Char × ℕ)) (cur i : ℕ), i + 1 < docs.length →
    ((buildGo docs cur).getD (i + 1) default).page =
      ((buildGo docs cur).getD i default).page +
        ((buildGo docs cur).getD i default).num_pages := by
  intro docs
  induction docs with
  | nil => intro cur i h; simp at h
  | cons d t ih =>
    intro cur i h
    obtain ⟨stem, np⟩ := d
    cases i with
    | zero =>
      cases t with
      | nil => simp at h
      | cons d2 t2 =>
        obtain ⟨s2, np2⟩ := d2
        simp [buildGo]
    | succ j =>
      have hj : j + 1 < t.length := by
        simp only [List.length_cons] at h
        omega
      simpa [buildGo] using ih (cur + np) j hj

/-- C2: for every ordered list of input documents, consecutive
`DocumentEntry` rows satisfy `page(i+1) = page(i) + num_pages(i)`, and
the first entry's start page is `2 + max 1 ((n * 2) / 40)`, i.e. 1 title
page plus the estimated TOC page count `max(1, (n*2) // 40)` plus one. -/
theorem c2_document_info_invariant :
    ∀ docs : List (List Char × ℕ),
      (∀ i : ℕ, i + 1 < (buildDocumentInfo docs).length →
        ((buildDocumentInfo docs).getD (i + 1) default).page =
          ((buildDocumentInfo docs).getD i default).page +
            ((buildDocumentInfo docs).getD i default).num_pages) ∧
      (docs ≠ [] →
        ((buildDocumentInfo docs).headD default).page =
          2 + max 1 (docs.length * 2 / 40)) := by
  intro docs
  constructor
  · intro i h
    rw [buildDocumentInfo] at h ⊢
    rw [buildGo_length] at h
    exact buildGo_chain docs _ i h
  · intro hne
    cases docs with
    | nil => exact absurd rfl hne
    | cons d t =>
      obtain ⟨stem, np⟩ := d
      simp [buildDocumentInfo, buildGo, estimatedTocPages]

theorem c2_document_info_witness :
    ((buildDocumentInfo [(("a_b").data, 3), (("a_c").data, 2)]).getD 1 default).page =
      ((buildDocumentInfo [(("a_b").data, 3), (("a_c").data, 2)]).getD 0 default).page +
        ((buildDocumentInfo [(("a_b").data, 3), (("a_c").data, 2)]).getD 0 default).num_pages ∧
    ((buildDocumentInfo [(("a_b").data, 3), (("a_c").data, 2)]).headD default).page =
      2 + max 1 (2 * 2 / 40) := by
  have h := c2_document_info_invariant [(("a_b").data, 3), (("a_c").data, 2)]
  exact ⟨h.1 0 (by decide), h.2 (by decide)⟩

/- ## Claim theorems: group nodes in bookmarks and TOC -/

theorem runsCount_pos : ∀ (a : List Char) (l : List (List Char)), 1 ≤ runsCount (a :: l) := by
  intro a l
  induction l generalizing a with
  | nil => simp [runsCount]
  | cons b t ih =>
    rw [runsCount]
    have := ih b
    omega

theorem bookmarkGroupLabels_some : ∀ (infos : List DocumentEntry) (c : List Char),
    (bookmarkGroupLabels (some c) infos).length + 1 =
      runsCount (c :: infos.map (fun e => e.folder)) := by
  intro infos
  induction infos with
  | nil => intro c; simp [bookmarkGroupLabels, runsCount]
  | cons e t ih =>
    intro c
    by_cases h : c = e.folder
    · rw [bookmarkGroupLabels, if_neg (by simp [h])]
      rw [List.map_cons, runsCount, if_pos h]
      simpa using ih e.folder
    · rw [bookmarkGroupLabels, if_pos (by simp [h])]
      rw [List.map_cons, runsCount, if_neg h]
      have := ih e.folder
      simp only [List.length_cons]
      omega

theorem bookmarkGroupLabels_none : ∀ infos : List DocumentEntry,
    (bookmarkGroupLabels none infos).length = runsCount (infos.map (fun e => e.folder)) := by
  intro infos
  cases infos with
  | nil => rfl
  | cons e t =>
    rw [bookmarkGroupLabels, if_pos (by simp)]
    rw [List.map_cons]
    have := bookmarkGroupLabels_some t e.folder
    simp only [List.length_cons]
    omega

theorem tocGroupHeaders_eq_bookmark : ∀ (cur : Option (List Char)) (infos : List DocumentEntry),
    tocGroupHeaders cur infos = bookmarkGroupLabels cur infos := by
  intro cur infos
  induction infos generalizing cur with
  | nil => rfl
  | cons e t ih =>
    rw [tocGroupHeaders, bookmarkGroupLabels]
    by_cases h : cur ≠ some e.folder
    · rw [if_pos h, if_pos h, ih]
    · rw [if_neg h, if_neg h, ih]

/-- C10: in the bookmark-injection pass a new top-level group node is
created exactly when an entry's group label differs from the previous
entry's label, so the number of top-level group nodes equals the number
of runs of consecutive equal group labels; the TOC header loop follows
the identical rule, and a non-contiguously repeated label (here
`A, B, A`) yields multiple top-level nodes with that label. -/
theorem c10_group_nodes_runs :
    (∀ infos : List DocumentEntry,
      (bookmarkGroupLabels none infos).length = runsCount (infos.map (fun e => e.folder)) ∧
      tocGroupHeaders none infos = bookmarkGroupLabels none infos) ∧
    bookmarkGroupLabels none
        [⟨("A").data, [], 3, 1⟩, ⟨("B").data, [], 4, 1⟩, ⟨("A").data, [], 5, 1⟩] =
      [("A").data, ("B").data, ("A").data] := by
  refine ⟨fun infos => ⟨bookmarkGroupLabels_none infos, tocGroupHeaders_eq_bookmark none infos⟩, ?_⟩
  decide

/- ## Claim theorems: display-name derivation -/

theorem startsWith_refl_append : ∀ p r : List Char, startsWith p (p ++ r) = true := by
  intro p
  induction p with
  | nil => intro r; rfl
  | cons a ps ih =>
    intro r
    simp [startsWith, ih r]

theorem startsWith_take_congr : ∀ p s r : List Char,
    s.take p.length = r.take p.length → startsWith p s = startsWith p r := by
  intro p
  induction p with
  | nil => intro s r _; rfl
  | cons a ps ih =>
    intro s r h
    cases s with
    | nil =>
      cases r with
      | nil => rfl
      | cons b rt => simp [List.take_succ_cons] at h
    | cons c st =>
      cases r with
      | nil => simp [List.take_succ_cons] at h
      | cons b rt =>
        simp only [List.length_cons, List.take_succ_cons] at h
        injection h with h1 h2
        simp only [startsWith]
        rw [h1, ih st rt h2]

theorem noOccur_removeAllF_id (pat : List Char) :
    ∀ (s : List Char) (fuel : ℕ), noOccurB pat s = true → removeAllF pat fuel s = s := by
  intro s
  induction s with
  | nil => intro fuel _; cases fuel <;> rfl
  | cons c t ih =>
    intro fuel h
    rw [noOccurB] at h
    obtain ⟨h1, h2⟩ := (Bool.and_eq_true _ _).mp h
    have h1' : startsWith pat (c :: t) = false := by
      rwa [Bool.not_eq_true'] at h1
    cases fuel with
    | zero => rfl
    | succ f =>
      simp only [removeAllF]
      rw [if_neg (by simp [h1']), ih f h2]

theorem removeAllF_consume (pat rest : List Char) (f : ℕ) (hp : pat ≠ []) :
    removeAllF pat (f + 1) (pat ++ rest) = removeAllF pat f rest := by
  cases pat with
  | nil => exact absurd rfl hp
  | cons a ps =>
    have hsw : startsWith (a :: ps) ((a :: ps) ++ rest) = true := startsWith_refl_append _ _
    rw [List.cons_append] at hsw ⊢
    simp only [removeAllF]
    rw [if_pos (by simp [hsw])]
    simp only [List.length_cons, List.drop_succ_cons]
    rw [List.drop_left]

theorem startsWith_straddle (pat : List Char) (c : Char) (t : List Char) (hp : pat ≠ []) :
    startsWith pat (c :: (t ++ pat)) = startsWith pat (c :: (t ++ pat.dropLast)) := by
  apply startsWith_take_congr
  have hL : pat.length = (pat.length - 1) + 1 := by
    cases pat with
    | nil => exact absurd rfl hp
    | cons x xs => simp
  rw [hL, List.take_succ_cons, List.take_succ_cons]
  congr 1
  rw [List.take_append_eq_append_take, List.take_append_eq_append_take]
  congr 1
  rw [List.dropLast_eq_take, List.take_take]
  rw [Nat.min_eq_left (by omega)]

theorem removeAllF_end : ∀ (o : List Char) (fuel : ℕ) (pat : List Char), pat ≠ [] →
    noOccurB pat (o ++ pat.dropLast) = true → (o ++ pat).length ≤ fuel →
    removeAllF pat fuel (o ++ pat) = o := by
  intro o
  induction o with
  | nil =>
    intro fuel pat hp hno hf
    cases fuel with
    | zero =>
      exfalso
      cases pat with
      | nil => exact hp rfl
      | cons a ps => simp at hf
    | succ f =>
      rw [List.nil_append]
      have hc : removeAllF pat (f + 1) (pat ++ []) = removeAllF pat f [] :=
        removeAllF_consume pat [] f hp
      rw [List.append_nil] at hc
      rw [hc]
      cases f <;> rfl
  | cons c t ih =>
    intro fuel pat hp hno hf
    cases fuel with
    | zero => simp at hf
    | succ f =>
      rw [List.cons_append] at hno ⊢
      rw [noOccurB] at hno
      obtain ⟨h1, h2⟩ := (Bool.and_eq_true _ _).mp hno
      have h1' : startsWith pat (c :: (t ++ pat.dropLast)) = false := by
        rwa [Bool.not_eq_true'] at h1
      have hsw : startsWith pat (c :: (t ++ pat)) = false := by
        rw [startsWith_straddle pat c t hp]
        exact h1'
      simp only [removeAllF]
      rw [if_neg (by simp [hsw])]
      congr 1
      apply ih f pat hp h2
      simp only [List.length_cons, List.length_append] at hf ⊢
      omega

theorem takeWhile_group (g : List Char) (r : List Char) (hg : ∀ c ∈ g, c ≠ '_') :
    (g ++ '_' :: r).takeWhile (fun c => c ≠ '_') = g := by
  induction g with
  | nil => simp [List.takeWhile_cons]
  | cons a gs ih =>
    have ha : a ≠ '_' := hg a (by simp)
    rw [List.cons_append, List.takeWhile_cons, if_pos (by simp [ha]),
      ih (fun c hc => hg c (by simp [hc]))]

/-- C7: refuted on the code — for the intermediate filename
`doe_doe_payslip_watermarked.pdf` (group `doe`, original stem
`doe_payslip`), Python `str.replace` removes EVERY occurrence of `doe_`
and `_watermarked`, so the code derives `Payslip`, while the claimed
strip-prefix-and-suffix derivation yields `Doe Payslip`. -/
theorem c7_display_name_counterexample :
    ("doe_doe_payslip_watermarked").data =
      ("doe").data ++ '_' :: (("doe_payslip").data ++ wmChars) ∧
    docNameOf (("doe_doe_payslip_watermarked").data) ≠
      specDisplayName (("doe").data) (("doe_doe_payslip_watermarked").data) := by
  constructor
  · rfl
  · decide

/-- C7 (amended): for a watermarked filename `<group>_<stem>_watermarked.pdf`
whose group contains no underscore and whose remaining stem contains no
further occurrence of `<group>_` or of `_watermarked`, the derived group
label is the substring before the first `_` and the derived display name
equals the spec's strip-prefix/strip-suffix, truncate-at-`-`,
underscores-to-spaces, title-case derivation; in general the code removes
every occurrence of the two patterns, not only the prefix and suffix. -/
theorem c7_display_name_amended (g o : List Char)
    (hg : ∀ c ∈ g, c ≠ '_')
    (h1 : noOccurB (g ++ ['_']) (o ++ wmChars) = true)
    (h2 : noOccurB wmChars (o ++ wmChars.dropLast) = true) :
    folderNameOf (g ++ '_' :: (o ++ wmChars)) = g ∧
    docNameOf (g ++ '_' :: (o ++ wmChars)) =
      specDisplayName g (g ++ '_' :: (o ++ wmChars)) := by
  have hfolder : folderNameOf (g ++ '_' :: (o ++ wmChars)) = g := by
    rw [folderNameOf]
    have hx : (g ++ '_' :: (o ++ wmChars)) ++ pdfExt = g ++ '_' :: ((o ++ wmChars) ++ pdfExt) := by
      simp
    rw [hx]
    exact takeWhile_group g _ hg
  have hpne : (g ++ ['_']) ≠ [] := by simp
  have hstem : g ++ '_' :: (o ++ wmChars) = (g ++ ['_']) ++ (o ++ wmChars) := by simp
  have hinner : removeAll (g ++ ['_']) (g ++ '_' :: (o ++ wmChars)) = o ++ wmChars := by
    rw [removeAll, hstem]
    have hlen : ((g ++ ['_']) ++ (o ++ wmChars)).length =
        (((g ++ ['_']) ++ (o ++ wmChars)).length - 1) + 1 := by
      simp only [List.length_append, List.length_cons]
      omega
    rw [hlen, removeAllF_consume _ _ _ hpne, noOccur_removeAllF_id _ _ _ h1]
  have houter : removeAll wmChars (o ++ wmChars) = o := by
    rw [removeAll]
    exact removeAllF_end o _ wmChars (by decide) h2 (le_refl _)
  have hclean : cleanNameOf (g ++ '_' :: (o ++ wmChars)) = o := by
    rw [cleanNameOf, hfolder, hinner, houter]
  have hs1 : startsWith (g ++ ['_']) (g ++ '_' :: (o ++ wmChars)) = true := by
    rw [hstem]
    exact startsWith_refl_append _ _
  have hdrop : (g ++ '_' :: (o ++ wmChars)).drop (g ++ ['_']).length = o ++ wmChars := by
    rw [hstem]
    exact List.drop_left _ _
  have hs2 : endsWithB wmChars (o ++ wmChars) = true := by
    rw [endsWithB, List.reverse_append]
    exact startsWith_refl_append _ _
  have htake : (o ++ wmChars).take ((o ++ wmChars).length - wmChars.length) = o := by
    have hl : (o ++ wmChars).length - wmChars.length = o.length := by simp
    rw [hl]
    exact List.take_left _ _
  have hspec : specDisplayName g (g ++ '_' :: (o ++ wmChars)) =
      titleCase (mapReplaceChar '_' ' ' (o.takeWhile (fun c => c ≠ '-'))) false := by
    simp only [specDisplayName, hs1, if_true, hdrop, hs2, htake]
  refine ⟨hfolder, ?_⟩
  rw [docNameOf, hclean, hspec]

theorem c7_display_name_witness :
    folderNameOf (("doe").data ++ '_' :: (("payslip").data ++ wmChars)) = ("doe").data ∧
    docNameOf (("doe").data ++ '_' :: (("payslip").data ++ wmChars)) =
      specDisplayName (("doe").data) (("doe").data ++ '_' :: (("payslip").data ++ wmChars)) :=
  c7_display_name_amended (("doe").data) (("payslip").data) (by decide) (by decide) (by decide)

end RentalPdf
